import Mathlib

/-!
Shallow embedding of the Feather-Json core (src/json.rs, src/lexer.rs,
src/token.rs, src/error.rs).  Rust panics (unwrap on None, usize underflow,
out-of-bounds indexing/slicing, todo!()) are modelled explicitly through the
`RustResult.panic` outcome; fallible Rust functions returning
`Result<T, JsonError>` map to `RustResult`.  Machine strings are modelled as
Lean `String` over `List Char` (byte-level slicing of the UTF-8
representation coincides with character slicing on the ASCII inputs the
claims exercise).
-/

/-- Mirrors `TokenType` from src/token.rs (the revision used by src/json.rs,
which also carries bracket kinds). -/
inductive TokenType where
  | OpeningBrace
  | ClosingBrace
  | LeftBracket
  | RightBracket
  | Key
  | Assigner
  | Value
  | Separator
deriving DecidableEq, Repr

/-- Mirrors `Token` from src/token.rs: an optional lexeme plus a kind. -/
structure Token where
  lexeme : Option String
  tokenType : TokenType
deriving DecidableEq, Repr

/-- `Token::new(lexeme, token_type)` — always stores a lexeme. -/
def Token.new (lexeme : String) (tokenType : TokenType) : Token :=
  ⟨some lexeme, tokenType⟩

/-- `Token::no_lexeme(token_type)`. -/
def Token.no_lexeme (tokenType : TokenType) : Token :=
  ⟨none, tokenType⟩

def oTok : Token := Token.no_lexeme TokenType.OpeningBrace
def cTok : Token := Token.no_lexeme TokenType.ClosingBrace
def lbTok : Token := Token.no_lexeme TokenType.LeftBracket
def rbTok : Token := Token.no_lexeme TokenType.RightBracket
def aTok : Token := Token.no_lexeme TokenType.Assigner
def sepTok : Token := Token.no_lexeme TokenType.Separator
def keyTok (s : String) : Token := Token.new s TokenType.Key
def valTok (s : String) : Token := Token.new s TokenType.Value

/-- Mirrors `JsonError` from src/error.rs.  The `std::io::Error` payload of
`StdInputOutputError` is dropped: the hand-written `PartialEq` ignores it and
no claim inspects it. -/
inductive JsonError where
  | NoPathProvided
  | InvalidPath
  | InvalidJson
  | InsertCantInsertIntoValue
  | StdInputOutputError
  | JsonValueIsNotInteger
  | JsonValueIsNotFloat
  | JsonValueIsNotBool
  | JsonValueIsNotString
deriving DecidableEq, Repr

/-- The hand-written `impl PartialEq for JsonError` from src/error.rs: only
the five listed variant pairs compare `true`; every other pair falls through
to the catch-all `false` arm. -/
def JsonError.beq : JsonError → JsonError → Bool
  | .NoPathProvided, .NoPathProvided => true
  | .InvalidPath, .InvalidPath => true
  | .InvalidJson, .InvalidJson => true
  | .InsertCantInsertIntoValue, .InsertCantInsertIntoValue => true
  | .StdInputOutputError, .StdInputOutputError => true
  | _, _ => false

/-- Outcome of running a Rust function: a value, a typed `JsonError`, or a
panic (unwrap/underflow/index/todo). -/
inductive RustResult (α : Type) where
  | panic
  | err (e : JsonError)
  | ok (a : α)
deriving DecidableEq, Repr

/-- `str::parse::<i32>()`: optional sign, one or more ASCII digits, value in
the i32 range; anything else fails. -/
def parseI32 (s : String) : Option Int :=
  match s.data with
  | [] => none
  | c :: rest =>
    let (sign, digits) :=
      if c = '-' then ((-1 : Int), rest)
      else if c = '+' then ((1 : Int), rest)
      else ((1 : Int), c :: rest)
    if digits = [] then none
    else if digits.all Char.isDigit then
      let n : Nat := digits.foldl (fun a d => a * 10 + (d.toNat - 48)) 0
      let v : Int := sign * (n : Int)
      if -(2 ^ 31) ≤ v ∧ v ≤ 2 ^ 31 - 1 then some v else none
    else none

/-- Helper for `isF32Lit`: `digits+ | digits+ . digits* | digits* . digits+`
followed by an optional exponent is handled by the callers; this recognises
the mantissa part. -/
def isF32Mantissa (l : List Char) : Bool :=
  let ip := l.takeWhile Char.isDigit
  let rest := l.dropWhile Char.isDigit
  match rest with
  | [] => decide (ip ≠ [])
  | c :: fp =>
    if c = '.' then (decide (ip ≠ []) || decide (fp ≠ [])) && fp.all Char.isDigit
    else false

/-- Helper for `isF32Lit`: exponent body `sign? digits+`. -/
def isF32Exp (l : List Char) : Bool :=
  match l with
  | [] => false
  | c :: rest =>
    if c = '+' ∨ c = '-' then decide (rest ≠ []) && rest.all Char.isDigit
    else l.all Char.isDigit

/-- `str::parse::<f32>()` as a recogniser: Rust's grammar
`sign? (inf | infinity | nan | mantissa exp?)`, case-insensitive keywords.
Only acceptance matters to the embedding; see `JsonValue.Float`. -/
def isF32Lit (s : String) : Bool :=
  let l := s.data.map Char.toLower
  let body :=
    match l with
    | c :: rest => if c = '+' ∨ c = '-' then rest else l
    | [] => []
  if body = "inf".data ∨ body = "infinity".data ∨ body = "nan".data then true
  else
    let mant := body.takeWhile (fun c => c ≠ 'e')
    let rest := body.dropWhile (fun c => c ≠ 'e')
    match rest with
    | [] => isF32Mantissa mant
    | _ :: ex => isF32Mantissa mant && isF32Exp ex

abbrev I32 := Int
abbrev Bool32 := Bool
abbrev Str := String

/-- Mirrors `JsonValue` from src/json.rs.  The `f32` payload of `Float` is
represented by the accepted source literal: no claim inspects or renders a
float value, only which `parse` branch is taken, and that is decided by the
faithful `isF32Lit` recogniser. -/
inductive JsonValue where
  | Int (v : I32)
  | Float (lit : Str)
  | Bool (b : Bool32)
  | String (s : Str)
  | Array (elems : List JsonValue)

mutual

def JsonValue.decEq : (a b : JsonValue) → Decidable (a = b)
  | .Int a, .Int b =>
    match (inferInstance : DecidableEq I32) a b with
    | isTrue h => isTrue (by rw [h])
    | isFalse h => isFalse (by intro he; injection he; contradiction)
  | .Float a, .Float b =>
    match (inferInstance : DecidableEq Str) a b with
    | isTrue h => isTrue (by rw [h])
    | isFalse h => isFalse (by intro he; injection he; contradiction)
  | .Bool a, .Bool b =>
    match (inferInstance : DecidableEq Bool32) a b with
    | isTrue h => isTrue (by rw [h])
    | isFalse h => isFalse (by intro he; injection he; contradiction)
  | .String a, .String b =>
    match (inferInstance : DecidableEq Str) a b with
    | isTrue h => isTrue (by rw [h])
    | isFalse h => isFalse (by intro he; injection he; contradiction)
  | .Array a, .Array b =>
    match JsonValue.decEqList a b with
    | isTrue h => isTrue (by rw [h])
    | isFalse h => isFalse (by intro he; injection he; contradiction)
  | .Int _, .Float _ => isFalse (by intro he; cases he)
  | .Int _, .Bool _ => isFalse (by intro he; cases he)
  | .Int _, .String _ => isFalse (by intro he; cases he)
  | .Int _, .Array _ => isFalse (by intro he; cases he)
  | .Float _, .Int _ => isFalse (by intro he; cases he)
  | .Float _, .Bool _ => isFalse (by intro he; cases he)
  | .Float _, .String _ => isFalse (by intro he; cases he)
  | .Float _, .Array _ => isFalse (by intro he; cases he)
  | .Bool _, .Int _ => isFalse (by intro he; cases he)
  | .Bool _, .Float _ => isFalse (by intro he; cases he)
  | .Bool _, .String _ => isFalse (by intro he; cases he)
  | .Bool _, .Array _ => isFalse (by intro he; cases he)
  | .String _, .Int _ => isFalse (by intro he; cases he)
  | .String _, .Float _ => isFalse (by intro he; cases he)
  | .String _, .Bool _ => isFalse (by intro he; cases he)
  | .String _, .Array _ => isFalse (by intro he; cases he)
  | .Array _, .Int _ => isFalse (by intro he; cases he)
  | .Array _, .Float _ => isFalse (by intro he; cases he)
  | .Array _, .Bool _ => isFalse (by intro he; cases he)
  | .Array _, .String _ => isFalse (by intro he; cases he)

def JsonValue.decEqList : (xs ys : List JsonValue) → Decidable (xs = ys)
  | [], [] => isTrue rfl
  | [], _ :: _ => isFalse (by intro he; cases he)
  | _ :: _, [] => isFalse (by intro he; cases he)
  | x :: xs, y :: ys =>
    match JsonValue.decEq x y with
    | isFalse h1 => isFalse (by intro he; injection he; contradiction)
    | isTrue h1 =>
      match JsonValue.decEqList xs ys with
      | isTrue h2 => isTrue (by rw [h1, h2])
      | isFalse h2 => isFalse (by intro he; injection he; contradiction)

end

instance : DecidableEq JsonValue := JsonValue.decEq

/-- `JsonValue::parse` from src/json.rs: `"true"`/`"false"`, then i32, then
f32, else the lexeme is stored as a `String` unchanged (quotes included). -/
def JsonValue.parse (value : Str) : JsonValue :=
  if value = "true" then .Bool true
  else if value = "false" then .Bool false
  else
    match parseI32 value with
    | some n => .Int n
    | none => if isF32Lit value then .Float value else .String value

def natDigits (n : Nat) : String := String.mk (Nat.toDigits 10 n)

/-- `i32` `Display`: decimal digits with a leading minus for negatives. -/
def intToString (i : Int) : String :=
  if i < 0 then "-" ++ natDigits i.natAbs else natDigits i.natAbs

/-- `JsonValue::to_string_force` from src/json.rs; `Array` hits `todo!()`,
modelled as a panic (`none`).  The `Float` case returns the carried literal
(f32 `Display` output is not modelled; no claim exercises it). -/
def to_string_force : JsonValue → Option String
  | .String v => some v
  | .Array _ => none
  | .Int v => some (intToString v)
  | .Float lit => some lit
  | .Bool b => some (if b then "true" else "false")

/-- `true` for every non-`Array` value: exactly the domain on which
`to_string_force` does not hit `todo!()`. -/
def isScalar : JsonValue → Bool
  | .Array _ => false
  | _ => true

/- ───────────────────────── Lexer (src/lexer.rs) ───────────────────────── -/

def openBraceChar : Char := Char.ofNat 123
def closeBraceChar : Char := Char.ofNat 125
def quoteChar : Char := Char.ofNat 34

/-- Shared body of `handle_closing_brace`, `handle_right_bracket` and
`handle_separator`: flush a non-empty pending lexeme as a Value token. -/
def flushValue (buf : List Token) (lx : List Char) : List Token :=
  if lx = [] then buf else buf ++ [valTok (String.mk lx)]

/-- One character of `lex`: the big match in src/lexer.rs, state =
(emitted tokens, pending lexeme). -/
def lexStep (st : List Token × List Char) (c : Char) : List Token × List Char :=
  let (buf, lx) := st
  if c = openBraceChar then (buf ++ [oTok], lx)
  else if c = closeBraceChar then (flushValue buf lx ++ [cTok], [])
  else if c = '[' then (buf ++ [lbTok], lx)
  else if c = ']' then (flushValue buf lx ++ [rbTok], [])
  else if c = ':' then (buf ++ [keyTok (String.mk lx), aTok], [])
  else if c = ',' then (flushValue buf lx ++ [sepTok], [])
  else if c = ' ' then (buf, if lx.head? = some quoteChar then lx ++ [' '] else lx)
  else if c = '\n' ∨ c = '\r' ∨ c = '\t' then (buf, lx)
  else (buf, lx ++ [c])

/-- `lex` from src/lexer.rs: left-to-right scan; a pending lexeme left at end
of input is dropped (the Rust loop never flushes it). -/
def lex (s : String) : List Token :=
  (s.data.foldl lexStep ([], [])).1

/- ─────────────────── Path resolver and query (src/json.rs) ─────────────── -/

/-- `Json::update_nested_level`: braces only; decrementing a zero `usize`
counter is a panic. -/
def Json.update_nested_level (n : Nat) (t : Token) : Option Nat :=
  match t.tokenType with
  | .OpeningBrace => some (n + 1)
  | .ClosingBrace => if n = 0 then none else some (n - 1)
  | _ => some n

/-- `Json::update_nested_level_include_brackets`: same, also counting
bracket tokens. -/
def Json.update_nested_level_include_brackets (n : Nat) (t : Token) : Option Nat :=
  match t.tokenType with
  | .OpeningBrace => some (n + 1)
  | .LeftBracket => some (n + 1)
  | .ClosingBrace => if n = 0 then none else some (n - 1)
  | .RightBracket => if n = 0 then none else some (n - 1)
  | _ => some n

/-- The slice `&key_lexeme[1..key_lexeme.len() - 1]`: first and last
characters removed (callers guard length ≥ 2; shorter slices panic). -/
def dequote (s : String) : String :=
  String.mk ((s.data.drop 1).dropLast)

/-- Loop body of `Json::find_key_token_index`: scans the remaining tokens,
carrying the enumeration index `i`, the matched-segment count `kf` and the
nesting level `n`; `total` is the full token count (for the first/last-token
skip).  Panics: nesting underflow, a matched-depth Key with no lexeme or a
lexeme shorter than 2, and a segment index out of `keys`' range. -/
def Json.find_key_aux (keys : List String) (total : Nat) :
    List Token → Nat → Nat → Nat → RustResult Nat
  | [], _, _, _ => .err .InvalidPath
  | t :: rest, i, kf, n =>
    match if i ≠ 0 ∧ i ≠ total - 1 then Json.update_nested_level n t else some n with
    | none => .panic
    | some n' =>
      if t.tokenType = TokenType.Key ∧ n' = kf then
        match t.lexeme with
        | none => .panic
        | some lx =>
          if 2 ≤ lx.data.length then
            match keys.get? kf with
            | none => .panic
            | some seg =>
              if dequote lx = seg then
                if kf + 1 = keys.length then .ok i
                else Json.find_key_aux keys total rest (i + 1) (kf + 1) n'
              else Json.find_key_aux keys total rest (i + 1) kf n'
          else .panic
      else Json.find_key_aux keys total rest (i + 1) kf n'

/-- `Json::find_key_token_index`. -/
def Json.find_key_token_index (tokens : List Token) (keys : List String) :
    RustResult Nat :=
  if keys = [] then .err .NoPathProvided
  else Json.find_key_aux keys tokens.length tokens 0 0 0

/-- `Json::get`: resolve the path, inspect `idx + 2`, reject objects, and
run scalar inference on the value token's lexeme (unwrap panics when the
token carries none). -/
def Json.get (tokens : List Token) (keys : List String) : RustResult JsonValue :=
  match Json.find_key_token_index tokens keys with
  | .panic => .panic
  | .err e => .err e
  | .ok idx =>
    match tokens.get? (idx + 2) with
    | none => .err .InvalidJson
    | some vt =>
      if vt.tokenType = TokenType.OpeningBrace then .err .InvalidPath
      else
        match vt.lexeme with
        | none => .panic
        | some lx => .ok (JsonValue.parse lx)

/- ───────────────────── Mutator (src/json.rs insert_*) ─────────────────── -/

/-- `Json::is_key_value_an_object`: is the token at `key_index + 2` an
OpeningBrace? -/
def Json.is_key_value_an_object (tokens : List Token) (key_index : Nat) :
    RustResult Bool :=
  match tokens.get? (key_index + 2) with
  | none => .err .InvalidJson
  | some t => .ok (t.tokenType = TokenType.OpeningBrace)

/-- The `insert_at` computation at the head of `Json::insert_tokens`:
resolve the path, require an object target (`i + 3`), or fall back to the
document root (`1`) on an empty path. -/
def Json.insert_index (tokens : List Token) (keys : List String) : RustResult Nat :=
  match Json.find_key_token_index tokens keys with
  | .panic => .panic
  | .ok i =>
    match Json.is_key_value_an_object tokens i with
    | .panic => .panic
    | .err e => .err e
    | .ok true => .ok (i + 3)
    | .ok false => .err .InsertCantInsertIntoValue
  | .err .NoPathProvided => .ok 1
  | .err e => .err e

/-- `Json::insert_tokens`: splice the run at the insertion index
(`Vec::splice` panics past the end), then repair the separator after the run
when `end_with_sep` is set. -/
def Json.insert_tokens (tokens : List Token) (keys : List String)
    (run : List Token) (end_with_sep : Bool) : RustResult (List Token) :=
  match Json.insert_index tokens keys with
  | .panic => .panic
  | .err e => .err e
  | .ok insert_at =>
    if tokens.length < insert_at then .panic
    else
      let spliced := tokens.take insert_at ++ run ++ tokens.drop insert_at
      if end_with_sep = false then .ok spliced
      else
        match spliced.get? (insert_at + run.length) with
        | some t =>
          if t.tokenType = TokenType.ClosingBrace then .ok spliced
          else
            .ok (spliced.take (insert_at + run.length) ++
              sepTok :: spliced.drop (insert_at + run.length))
        | none => .err .InvalidJson

/-- The token run built by `Json::insert_value`:
`[Key("\"k\""), Assigner, Value(v)]`. -/
def valueRun (key vs : String) : List Token :=
  [keyTok ("\"" ++ key ++ "\""), aTok, valTok vs]

/-- The token run built by `Json::insert_object`:
`[Key("\"k\""), Assigner, OpeningBrace, ClosingBrace]`. -/
def objectRun (key : String) : List Token :=
  [keyTok ("\"" ++ key ++ "\""), aTok, oTok, cTok]

/-- `Json::insert_value`; `to_string_force` runs first and panics on
`Array` values. -/
def Json.insert_value (tokens : List Token) (keys : List String) (key : String)
    (value : JsonValue) : RustResult (List Token) :=
  match to_string_force value with
  | none => .panic
  | some vs => Json.insert_tokens tokens keys (valueRun key vs) true

/-- `Json::insert_object`. -/
def Json.insert_object (tokens : List Token) (keys : List String) (key : String) :
    RustResult (List Token) :=
  Json.insert_tokens tokens keys (objectRun key) true

/- ─────────────────────── Compact serializer ───────────────────────────── -/

/-- Text of one token in `Json::to_string`; the lexeme unwrap on Key/Value
panics (`none`) when absent. -/
def tokenText (t : Token) : Option String :=
  match t.tokenType with
  | .OpeningBrace => some (String.mk [openBraceChar])
  | .ClosingBrace => some (String.mk [closeBraceChar])
  | .LeftBracket => some "["
  | .RightBracket => some "]"
  | .Assigner => some ":"
  | .Separator => some ","
  | .Key => t.lexeme
  | .Value => t.lexeme

def Json.to_string_aux : List Token → String → Option String
  | [], buf => some buf
  | t :: rest, buf =>
    match tokenText t with
    | none => none
    | some s => Json.to_string_aux rest (buf ++ s)

/-- `Json::to_string`: concatenate structural characters and lexemes
verbatim (the capacity estimate is a performance hint and is not modelled). -/
def Json.to_string (tokens : List Token) : Option String :=
  Json.to_string_aux tokens ""

/- ─────────────────────── Pretty serializer ────────────────────────────── -/

def tabs (n : Nat) : String := String.mk (List.replicate n '\t')

/-- `Json::format_handle_close_bracket` (assertion on the bracket argument
holds at both call sites; `br` is the bracket text). -/
def Json.format_close (tokens : List Token) (buf : String) (i nl : Nat)
    (br : String) : RustResult String :=
  let buf1 := buf ++ tabs nl
  match tokens.get? (i + 1) with
  | some t =>
    if t.tokenType = TokenType.Separator then .ok (buf1 ++ br)
    else .ok (buf1 ++ br ++ "\n")
  | none =>
    if nl = 0 then .ok (buf1 ++ br ++ "\n") else .err .InvalidJson

/-- `Json::format_handle_left_bracket`: indexes `tokens[i - 1]`, panicking
at `i = 0` (usize underflow / out-of-bounds). -/
def Json.format_lb (tokens : List Token) (buf : String) (i nl : Nat) :
    RustResult String :=
  if i = 0 then .panic
  else
    match tokens.get? (i - 1) with
    | none => .panic
    | some p =>
      if p.tokenType ≠ TokenType.Assigner then
        .ok (buf ++ tabs (nl - 1) ++ "[\n")
      else .ok (buf ++ "[\n")

/-- `Json::format_handle_value`: tab-indent after a fresh newline, emit the
lexeme (unwrap), then decide the newline from `tokens[i + 1]` (a direct
index — missing successor panics). -/
def Json.format_value (tokens : List Token) (buf : String) (i nl : Nat)
    (t : Token) : RustResult String :=
  let buf1 := if buf.data.getLast? = some '\n' then buf ++ tabs nl else buf
  match t.lexeme with
  | none => .panic
  | some v =>
    match tokens.get? (i + 1) with
    | none => .panic
    | some t2 =>
      if t2.tokenType ≠ TokenType.Separator then .ok (buf1 ++ v ++ "\n")
      else .ok (buf1 ++ v)

/-- Loop body of `Json::to_string_format`: update the bracket-aware nesting
counter, then dispatch on the token kind. -/
def Json.format_aux (tokens : List Token) :
    List Token → Nat → Nat → String → RustResult String
  | [], _, _, buf => .ok buf
  | t :: rest, i, nl, buf =>
    match Json.update_nested_level_include_brackets nl t with
    | none => .panic
    | some nl' =>
      match t.tokenType with
      | .OpeningBrace =>
        Json.format_aux tokens rest (i + 1) nl' (buf ++ String.mk [openBraceChar, '\n'])
      | .ClosingBrace =>
        match Json.format_close tokens buf i nl' (String.mk [closeBraceChar]) with
        | .panic => .panic
        | .err e => .err e
        | .ok buf' => Json.format_aux tokens rest (i + 1) nl' buf'
      | .LeftBracket =>
        match Json.format_lb tokens buf i nl' with
        | .panic => .panic
        | .err e => .err e
        | .ok buf' => Json.format_aux tokens rest (i + 1) nl' buf'
      | .RightBracket =>
        match Json.format_close tokens buf i nl' "]" with
        | .panic => .panic
        | .err e => .err e
        | .ok buf' => Json.format_aux tokens rest (i + 1) nl' buf'
      | .Key =>
        match t.lexeme with
        | none => .panic
        | some k => Json.format_aux tokens rest (i + 1) nl' (buf ++ tabs nl' ++ k)
      | .Value =>
        match Json.format_value tokens buf i nl' t with
        | .panic => .panic
        | .err e => .err e
        | .ok buf' => Json.format_aux tokens rest (i + 1) nl' buf'
      | .Assigner => Json.format_aux tokens rest (i + 1) nl' (buf ++ ": ")
      | .Separator => Json.format_aux tokens rest (i + 1) nl' (buf ++ ",\n")

/-- `Json::to_string_format`. -/
def Json.to_string_format (tokens : List Token) : RustResult String :=
  Json.format_aux tokens tokens 0 0 ""

/- ───────────── Well-formedness domains used by the theorems ───────────── -/

/-- Nonterminals of the object-document token grammar. -/
inductive GKind where
  | obj
  | members
  | entry
deriving DecidableEq

/-- Token sequences of well-formed, array-free object documents:
`obj = { members }`, `members = ε | entry | entry , members`,
`entry = Key Assigner (Value | obj)` with quoted (length ≥ 2) key lexemes.
This is the §3 data-model shape restricted to the feature set the code
handles without panicking. -/
inductive Gram : GKind → List Token → Prop where
  | obj (ms : List Token) : Gram .members ms → Gram .obj (oTok :: ms ++ [cTok])
  | mnil : Gram .members []
  | msingle (e : List Token) : Gram .entry e → Gram .members e
  | mcons (e rest : List Token) : Gram .entry e → Gram .members rest →
      Gram .members (e ++ sepTok :: rest)
  | entryVal (k v : String) : 2 ≤ k.data.length →
      Gram .entry [keyTok k, aTok, valTok v]
  | entryObj (k : String) (o : List Token) : 2 ≤ k.data.length →
      Gram .obj o → Gram .entry (keyTok k :: aTok :: o)

/-- Brace balance of a token list starting from `n` (Nat-truncated; used
only beneath `depthSafe`). -/
def braceBal (L : List Token) (n : Nat) : Nat :=
  L.foldl
    (fun m t =>
      match t.tokenType with
      | .OpeningBrace => m + 1
      | .ClosingBrace => m - 1
      | _ => m) n

/-- Every ClosingBrace in `L` is reached with a positive brace counter when
scanning from `n`: exactly the condition under which the resolver's
`Json.update_nested_level` never underflows. -/
def depthSafe : List Token → Nat → Bool
  | [], _ => true
  | t :: rest, n =>
    match t.tokenType with
    | .OpeningBrace => depthSafe rest (n + 1)
    | .ClosingBrace => decide (1 ≤ n) && depthSafe rest (n - 1)
    | _ => depthSafe rest n

/-- Every Key token is followed two positions later (inside `L`) by either
an OpeningBrace or a lexeme-carrying Value token. -/
def keyShape (L : List Token) : Prop :=
  ∀ j t, L.get? j = some t → t.tokenType = TokenType.Key →
    ∃ t2, L.get? (j + 2) = some t2 ∧
      (t2.tokenType = TokenType.OpeningBrace ∨
        (t2.tokenType = TokenType.Value ∧ ∃ v, t2.lexeme = some v))

/- Relexable documents (domain of the round-trip theorem). -/

def isStructuralChar (c : Char) : Bool :=
  c = openBraceChar || c = closeBraceChar || c = '[' || c = ']' || c = ':' || c = ','

def isWsChar (c : Char) : Bool :=
  c = '\n' || c = '\r' || c = '\t'

/-- A character the lexer always appends to the pending lexeme. -/
def plainChar (c : Char) : Bool :=
  !isStructuralChar c && !isWsChar c && !(c = ' ')

/-- A character the lexer appends while inside a quote-initiated lexeme. -/
def looseChar (c : Char) : Bool :=
  !isStructuralChar c && !isWsChar c

/-- A lexeme the lexer re-accumulates verbatim: no structural or
newline/tab characters, and spaces only when the lexeme opens with a
quote. -/
def GoodChunk (l : List Char) : Prop :=
  (∀ c ∈ l, looseChar c = true) ∧
    (l.head? = some quoteChar ∨ ∀ c ∈ l, plainChar c = true)

instance (l : List Char) : Decidable (GoodChunk l) := by
  unfold GoodChunk
  infer_instance

/-- Relexable token sequences: compact-serializing and re-lexing
reproduces them exactly.  Keys are immediately followed by an Assigner
(and Assigners only appear there), Values are nonempty and immediately
followed by a flushing token (Separator/ClosingBrace/RightBracket), and
all lexemes are `GoodChunk`s. -/
inductive Relex : List Token → Prop where
  | nil : Relex []
  | brace (rest : List Token) : Relex rest → Relex (oTok :: rest)
  | close (rest : List Token) : Relex rest → Relex (cTok :: rest)
  | lbr (rest : List Token) : Relex rest → Relex (lbTok :: rest)
  | rbr (rest : List Token) : Relex rest → Relex (rbTok :: rest)
  | sep (rest : List Token) : Relex rest → Relex (sepTok :: rest)
  | key (k : List Char) (rest : List Token) : GoodChunk k → Relex rest →
      Relex (keyTok (String.mk k) :: aTok :: rest)
  | valSep (v : List Char) (rest : List Token) : v ≠ [] → GoodChunk v →
      Relex rest → Relex (valTok (String.mk v) :: sepTok :: rest)
  | valClose (v : List Char) (rest : List Token) : v ≠ [] → GoodChunk v →
      Relex rest → Relex (valTok (String.mk v) :: cTok :: rest)
  | valRbr (v : List Char) (rest : List Token) : v ≠ [] → GoodChunk v →
      Relex rest → Relex (valTok (String.mk v) :: rbTok :: rest)

/-- The characters `Json.to_string` emits for a token list (lexeme-less
Key/Value contribute nothing; on the `Json.to_string` domain they panic
instead, see `to_string_eq_textOf`). -/
def textOf : List Token → List Char
  | [] => []
  | t :: rest =>
    (match tokenText t with
     | some s => s.data
     | none => []) ++ textOf rest

/- ═══════════════════════════ Claim theorems ═══════════════════════════ -/

/-- C2: starting from the document lexed from the empty object text,
`Json.insert_value` with an empty path, key "x" and `Int 42` succeeds by
splicing the Key/Assigner/Value run at token index 1 (right after the
outermost OpeningBrace); afterwards `Json.get ["x"]` returns `Int 42` and the
compact serializer produces exactly the text of an object with the single
entry `"x":42`. -/
theorem c2_insert_then_get_at_root :
    Json.insert_value (lex "\x7b\x7d") [] "x" (.Int 42) =
      .ok ((lex "\x7b\x7d").take 1 ++ valueRun "x" "42" ++ (lex "\x7b\x7d").drop 1) ∧
    (lex "\x7b\x7d").take 1 ++ valueRun "x" "42" ++ (lex "\x7b\x7d").drop 1 =
      [oTok, keyTok "\"x\"", aTok, valTok "42", cTok] ∧
    Json.get [oTok, keyTok "\"x\"", aTok, valTok "42", cTok] ["x"] = .ok (.Int 42) ∧
    Json.to_string [oTok, keyTok "\"x\"", aTok, valTok "42", cTok] =
      some "\x7b\"x\":42\x7d" := by
  decide

/-- C6 counterexample: the claim says `Json.get ["x"]` on the document lexed
from an object mapping "x" to the quoted string "hello world" yields
`String "hello world"`; in fact `JsonValue::parse` stores the lexeme
unchanged, so the wrapping quotes are NOT stripped. -/
theorem c6_counterexample :
    ¬ Json.get (lex "\x7b\"x\":\"hello world\"\x7d") ["x"] =
        .ok (.String "hello world") := by
  decide

/-- C6 (amended): lexing the same text and calling `Json.get ["x"]` yields
`String "\"hello world\""` — the embedded space is preserved by the lexer
because the pending lexeme begins with a quote character, and the wrapping
quotes kept by the lexer remain in the returned String (scalar inference
does not strip them). -/
theorem c6_quoted_string_values :
    Json.get (lex "\x7b\"x\":\"hello world\"\x7d") ["x"] =
      .ok (.String "\"hello world\"") := by
  decide

/-- C8 counterexample: the pretty serializer does not produce the pinned
literal of the claim (which has no space after the colon of "a" and no
trailing newline); every Assigner emits a colon-space and the final
ClosingBrace appends a newline. -/
theorem c8_counterexample :
    ¬ Json.to_string_format (lex "\x7b\"a\":1,\"b\":\x7b\"c\":2\x7d\x7d") =
        .ok "\x7b\n\t\"a\":1,\n\t\"b\": \x7b\n\t\t\"c\": 2\n\t\x7d\n\x7d" := by
  decide

/-- C8 (amended): lexing the two-entry nested object text and calling the
pretty serializer produces exactly the tab-indented text with a
colon-space after EVERY Assigner (including "a") and a trailing newline
after the final ClosingBrace. -/
theorem c8_pretty_print_literal :
    Json.to_string_format (lex "\x7b\"a\":1,\"b\":\x7b\"c\":2\x7d\x7d") =
      .ok "\x7b\n\t\"a\": 1,\n\t\"b\": \x7b\n\t\t\"c\": 2\n\t\x7d\n\x7d\n" := by
  decide

/-- C10: the hand-written `PartialEq` makes `==` non-reflexive on the four
value-coercion variants (each compares `false` to itself) and reflexive
exactly on the five path/JSON/IO variants it enumerates. -/
theorem c10_error_equality_not_reflexive :
    JsonError.beq .JsonValueIsNotInteger .JsonValueIsNotInteger = false ∧
    JsonError.beq .JsonValueIsNotFloat .JsonValueIsNotFloat = false ∧
    JsonError.beq .JsonValueIsNotBool .JsonValueIsNotBool = false ∧
    JsonError.beq .JsonValueIsNotString .JsonValueIsNotString = false ∧
    (∀ e : JsonError, JsonError.beq e e = true ↔
      (e = .NoPathProvided ∨ e = .InvalidPath ∨ e = .InvalidJson ∨
        e = .InsertCantInsertIntoValue ∨ e = .StdInputOutputError)) := by
  refine ⟨rfl, rfl, rfl, rfl, ?_⟩
  intro e
  cases e <;> simp [JsonError.beq]

/-- C1: depth-gated path resolution.  Concrete part: on the document lexed
from the nested same-key object text, `Json.get ["a", "a"]` returns `Int 1`,
selecting the inner key.  General part: during the resolver's scan (depth
not updated at the first and last positions), a step on token `t` at
position `i` advances the match (returning `i` when the path is exhausted)
iff `t` is a Key token, the updated depth equals the count of segments
already matched, and the lexeme with first and last characters removed
equals the next path segment. -/
theorem c1_depth_gated_resolution :
    Json.get (lex "\x7b\"a\":\x7b\"a\":1\x7d\x7d") ["a", "a"] = .ok (.Int 1) ∧
    (∀ (keys : List String) (total : Nat) (t : Token) (rest : List Token)
        (i kf n n' : Nat) (lx seg : String),
      i ≠ 0 → i ≠ total - 1 →
      Json.update_nested_level n t = some n' →
      t.lexeme = some lx → 2 ≤ lx.data.length →
      keys.get? kf = some seg →
      Json.find_key_aux keys total (t :: rest) i kf n =
        if t.tokenType = TokenType.Key ∧ n' = kf ∧ dequote lx = seg then
          (if kf + 1 = keys.length then .ok i
           else Json.find_key_aux keys total rest (i + 1) (kf + 1) n')
        else Json.find_key_aux keys total rest (i + 1) kf n') := by
  constructor
  · decide
  · intro keys total t rest i kf n n' lx seg h0 h1 hupd hlx hlen hseg
    have hcond : (i ≠ 0 ∧ i ≠ total - 1) := ⟨h0, h1⟩
    simp only [Json.find_key_aux, if_pos hcond, hupd, hlx, hseg]
    by_cases hk : t.tokenType = TokenType.Key ∧ n' = kf
    · rw [if_pos hk, if_pos hlen]
      by_cases hd : dequote lx = seg
      · rw [if_pos hd,
          if_pos (show t.tokenType = TokenType.Key ∧ n' = kf ∧ dequote lx = seg
            from ⟨hk.1, hk.2, hd⟩)]
      · rw [if_neg hd,
          if_neg (show ¬(t.tokenType = TokenType.Key ∧ n' = kf ∧ dequote lx = seg)
            from fun h3 => hd h3.2.2)]
    · rw [if_neg hk,
        if_neg (show ¬(t.tokenType = TokenType.Key ∧ n' = kf ∧ dequote lx = seg)
          from fun h3 => hk ⟨h3.1, h3.2.1⟩)]

/-- C1 witness: the characterization applied at the concrete advancing step
of the outer "a" key (position 1, depth 0, zero segments matched). -/
theorem c1_depth_gated_resolution_witness :
    Json.find_key_aux ["a"] 5 (keyTok "\"a\"" :: [aTok, valTok "1", cTok]) 1 0 0 =
      .ok 1 := by
  have h := c1_depth_gated_resolution.2 ["a"] 5 (keyTok "\"a\"")
    [aTok, valTok "1", cTok] 1 0 0 0 "\"a\"" "a"
    (by decide) (by decide) (by decide) rfl (by decide) (by decide)
  simpa using h

/-- C3: query contract at `idx + 2`.  On every document, an empty path
fails with `NoPathProvided`; when the resolver returns Key index `idx`,
`get` inspects the token at `idx + 2`: absent ⇒ `InvalidJson`,
OpeningBrace ⇒ `InvalidPath`, otherwise the result is scalar inference on
that token's lexeme. -/
theorem c3_query_contract :
    (∀ tokens : List Token, Json.get tokens [] = .err .NoPathProvided) ∧
    (∀ (tokens : List Token) (keys : List String) (idx : Nat),
      Json.find_key_token_index tokens keys = .ok idx →
      (tokens.get? (idx + 2) = none → Json.get tokens keys = .err .InvalidJson) ∧
      (∀ t, tokens.get? (idx + 2) = some t →
        t.tokenType = TokenType.OpeningBrace →
        Json.get tokens keys = .err .InvalidPath) ∧
      (∀ t lx, tokens.get? (idx + 2) = some t →
        t.tokenType ≠ TokenType.OpeningBrace → t.lexeme = some lx →
        Json.get tokens keys = .ok (JsonValue.parse lx))) := by
  constructor
  · intro tokens
    simp [Json.get, Json.find_key_token_index]
  · intro tokens keys idx hfind
    refine ⟨?_, ?_, ?_⟩
    · intro hn
      rw [List.get?_eq_getElem?] at hn
      simp [Json.get, hfind, hn]
    · intro t ht hty
      rw [List.get?_eq_getElem?] at ht
      simp [Json.get, hfind, ht, hty]
    · intro t lx ht hty hlx
      rw [List.get?_eq_getElem?] at ht
      simp [Json.get, hfind, ht, hty, hlx]

/-- C3 witness: the empty-path reject on a concrete document, and the
success clause applied to a one-entry document. -/
theorem c3_query_contract_witness :
    Json.get [oTok] [] = .err .NoPathProvided ∧
    Json.get [oTok, keyTok "\"a\"", aTok, valTok "1", cTok] ["a"] =
      .ok (JsonValue.parse "1") := by
  constructor
  · exact c3_query_contract.1 [oTok]
  · exact (c3_query_contract.2 [oTok, keyTok "\"a\"", aTok, valTok "1", cTok]
      ["a"] 1 (by decide)).2.2 (valTok "1") "1" (by decide) (by decide) rfl

/-- Behaviour of `Json::insert_tokens` (with separator repair requested)
after a successful index resolution, by case on what follows the splice
point. -/
theorem insert_tokens_cases (tokens : List Token) (keys : List String)
    (run : List Token) (ia : Nat)
    (hia : Json.insert_index tokens keys = .ok ia) (hle : ia ≤ tokens.length) :
    (tokens.drop ia = [] →
      Json.insert_tokens tokens keys run true = .err .InvalidJson) ∧
    (∀ t rest, tokens.drop ia = t :: rest →
      t.tokenType = TokenType.ClosingBrace →
      Json.insert_tokens tokens keys run true =
        .ok (tokens.take ia ++ run ++ t :: rest)) ∧
    (∀ t rest, tokens.drop ia = t :: rest →
      t.tokenType ≠ TokenType.ClosingBrace →
      Json.insert_tokens tokens keys run true =
        .ok (tokens.take ia ++ run ++ sepTok :: t :: rest)) := by
  have hnlt : ¬ (tokens.length < ia) := not_lt.mpr hle
  have hA : (tokens.take ia ++ run).length = ia + run.length := by
    simp [List.length_take, Nat.min_eq_left hle]
  have hget : ∀ L : List Token,
      (tokens.take ia ++ run ++ L)[ia + run.length]? = L.head? := by
    intro L
    rw [List.getElem?_append_right (le_of_eq hA), hA, Nat.sub_self]
    cases L <;> simp
  refine ⟨?_, ?_, ?_⟩
  · intro hdrop
    simp only [Json.insert_tokens, hia, if_neg hnlt, hdrop]
    have h2 := hget []
    simp only [List.head?_nil, List.append_nil] at h2
    simp [h2]
  · intro t rest hdrop hty
    simp only [Json.insert_tokens, hia, if_neg hnlt, hdrop]
    have h2 := hget (t :: rest)
    simp only [List.head?_cons] at h2
    rw [if_neg (show ¬(true = false) by decide)]
    rw [List.get?_eq_getElem?]
    simp only [h2]
    rw [if_pos hty]
  · intro t rest hdrop hty
    simp only [Json.insert_tokens, hia, if_neg hnlt, hdrop]
    have h2 := hget (t :: rest)
    simp only [List.head?_cons] at h2
    rw [if_neg (show ¬(true = false) by decide)]
    rw [List.get?_eq_getElem?]
    simp only [h2]
    rw [if_neg hty]
    rw [List.take_left' hA, List.drop_left' hA]

/-- C4: separator repair after the splice.  For any `insert_value` or
`insert_object` call whose insertion index resolves (and whose value panics
nowhere), the token following the spliced run decides the repair: a
ClosingBrace ⇒ no Separator is added; any other token ⇒ exactly one
Separator directly after the run; no token at all ⇒ the call fails with
`InvalidJson`. -/
theorem c4_separator_repair (tokens : List Token) (keys : List String)
    (k : String) (v : JsonValue) (vs : String) (ia : Nat)
    (hia : Json.insert_index tokens keys = .ok ia) (hle : ia ≤ tokens.length)
    (hvs : to_string_force v = some vs) :
    (tokens.drop ia = [] →
      Json.insert_value tokens keys k v = .err .InvalidJson ∧
      Json.insert_object tokens keys k = .err .InvalidJson) ∧
    (∀ t rest, tokens.drop ia = t :: rest →
      t.tokenType = TokenType.ClosingBrace →
      Json.insert_value tokens keys k v =
        .ok (tokens.take ia ++ valueRun k vs ++ t :: rest) ∧
      Json.insert_object tokens keys k =
        .ok (tokens.take ia ++ objectRun k ++ t :: rest)) ∧
    (∀ t rest, tokens.drop ia = t :: rest →
      t.tokenType ≠ TokenType.ClosingBrace →
      Json.insert_value tokens keys k v =
        .ok (tokens.take ia ++ valueRun k vs ++ sepTok :: t :: rest) ∧
      Json.insert_object tokens keys k =
        .ok (tokens.take ia ++ objectRun k ++ sepTok :: t :: rest)) := by
  have hv := insert_tokens_cases tokens keys (valueRun k vs) ia hia hle
  have ho := insert_tokens_cases tokens keys (objectRun k) ia hia hle
  have hval : Json.insert_value tokens keys k v =
      Json.insert_tokens tokens keys (valueRun k vs) true := by
    simp only [Json.insert_value, hvs]
  have hobj : Json.insert_object tokens keys k =
      Json.insert_tokens tokens keys (objectRun k) true := rfl
  refine ⟨?_, ?_, ?_⟩
  · intro hdrop
    exact ⟨hval.trans (hv.1 hdrop), hobj.trans (ho.1 hdrop)⟩
  · intro t rest hdrop hty
    exact ⟨hval.trans (hv.2.1 t rest hdrop hty),
      hobj.trans (ho.2.1 t rest hdrop hty)⟩
  · intro t rest hdrop hty
    exact ⟨hval.trans (hv.2.2 t rest hdrop hty),
      hobj.trans (ho.2.2 t rest hdrop hty)⟩

/-- C4 witness: root insertion into a one-entry document; the following
token is a Key, so exactly one Separator is spliced after the run. -/
theorem c4_separator_repair_witness :
    Json.insert_value [oTok, keyTok "\"a\"", aTok, valTok "1", cTok] [] "b"
      (.Bool true) =
      .ok [oTok, keyTok "\"b\"", aTok, valTok "true", sepTok,
        keyTok "\"a\"", aTok, valTok "1", cTok] := by
  have h := (c4_separator_repair [oTok, keyTok "\"a\"", aTok, valTok "1", cTok]
    [] "b" (.Bool true) "true" 1 (by decide) (by decide) rfl).2.2
    (keyTok "\"a\"") [aTok, valTok "1", cTok] (by decide) (by decide)
  exact h.1.trans (by decide)

/-- C9: scalar-target insertion rejection.  Concretely,
`insert_object ["x"] "y"` on the document lexed from an object mapping "x"
to 1 fails with `InsertCantInsertIntoValue`.  In general, when the
resolver returns Key index `i` and the token at `i + 2` exists but is not
an OpeningBrace, both insert operations fail with
`InsertCantInsertIntoValue`; when it is an OpeningBrace, the insertion
index resolves to `i + 3`. -/
theorem c9_scalar_target_rejection :
    Json.insert_object (lex "\x7b\"x\":1\x7d") ["x"] "y" =
      .err .InsertCantInsertIntoValue ∧
    (∀ (tokens : List Token) (keys : List String) (i : Nat) (t : Token),
      Json.find_key_token_index tokens keys = .ok i →
      tokens.get? (i + 2) = some t →
      (t.tokenType ≠ TokenType.OpeningBrace →
        (∀ (k : String) (v : JsonValue) (vs : String),
          to_string_force v = some vs →
          Json.insert_value tokens keys k v = .err .InsertCantInsertIntoValue) ∧
        (∀ k : String,
          Json.insert_object tokens keys k = .err .InsertCantInsertIntoValue)) ∧
      (t.tokenType = TokenType.OpeningBrace →
        Json.insert_index tokens keys = .ok (i + 3))) := by
  constructor
  · decide
  · intro tokens keys i t hfind ht
    have hkv : Json.is_key_value_an_object tokens i =
        .ok (decide (t.tokenType = TokenType.OpeningBrace)) := by
      simp only [Json.is_key_value_an_object, ht]
    constructor
    · intro hty
      rw [decide_eq_false hty] at hkv
      have hidx : Json.insert_index tokens keys =
          .err .InsertCantInsertIntoValue := by
        simp only [Json.insert_index, hfind, hkv]
      constructor
      · intro k v vs hvs
        simp only [Json.insert_value, hvs, Json.insert_tokens, hidx]
      · intro k
        simp only [Json.insert_object, Json.insert_tokens, hidx]
    · intro hty
      rw [decide_eq_true_eq.mpr hty] at hkv
      simp only [Json.insert_index, hfind, hkv]

/-- C9 witness: the scalar reject on a one-entry scalar document for
`insert_value`, and the `i + 3` insertion index on an object-valued key. -/
theorem c9_scalar_target_rejection_witness :
    Json.insert_value [oTok, keyTok "\"x\"", aTok, valTok "1", cTok] ["x"] "y"
      (.Int 3) = .err .InsertCantInsertIntoValue ∧
    Json.insert_index [oTok, keyTok "\"x\"", aTok, oTok, cTok, cTok] ["x"] =
      .ok 4 := by
  constructor
  · exact ((c9_scalar_target_rejection.2
      [oTok, keyTok "\"x\"", aTok, valTok "1", cTok] ["x"] 1 (valTok "1")
      (by decide) (by decide)).1 (by decide)).1 "y" (.Int 3) "3" rfl
  · exact (c9_scalar_target_rejection.2
      [oTok, keyTok "\"x\"", aTok, oTok, cTok, cTok] ["x"] 1 oTok
      (by decide) (by decide)).2 (by decide)

/- ───────────── C7: compact round-trip development ───────────── -/

theorem plain_of_loose_ne_space (c : Char) (h : looseChar c = true)
    (hs : c ≠ ' ') : plainChar c = true := by
  have hd : plainChar c = (looseChar c && !(decide (c = ' '))) := rfl
  rw [hd, h, Bool.true_and, Bool.not_eq_true', decide_eq_false_iff_not]
  exact hs

theorem lexStep_plain (c : Char) (h : plainChar c = true)
    (buf : List Token) (lx : List Char) :
    lexStep (buf, lx) c = (buf, lx ++ [c]) := by
  unfold lexStep
  split_ifs with h1 h2 h3 h4 h5 h6 h7 h8
  · subst h1; exact absurd h (by decide)
  · subst h2; exact absurd h (by decide)
  · subst h3; exact absurd h (by decide)
  · subst h4; exact absurd h (by decide)
  · subst h5; exact absurd h (by decide)
  · subst h6; exact absurd h (by decide)
  · subst h7; exact absurd h (by decide)
  · rcases h8 with h8 | h8 | h8 <;> (subst h8; exact absurd h (by decide))
  · rfl

theorem lexStep_space_quoted (buf : List Token) (lx : List Char)
    (h : lx.head? = some quoteChar) :
    lexStep (buf, lx) ' ' = (buf, lx ++ [' ']) := by
  simp [lexStep, h, quoteChar, openBraceChar, closeBraceChar]

theorem foldl_lex_plain (q : List Char) :
    ∀ (buf : List Token) (lx : List Char), (∀ c ∈ q, plainChar c = true) →
      List.foldl lexStep (buf, lx) q = (buf, lx ++ q) := by
  induction q with
  | nil => intro buf lx _; simp
  | cons c q ih =>
    intro buf lx h
    rw [List.foldl_cons, lexStep_plain c (h c (by simp))]
    rw [ih buf (lx ++ [c]) (fun d hd => h d (by simp [hd]))]
    simp

theorem foldl_lex_loose (q : List Char) :
    ∀ (buf : List Token) (lx : List Char), lx.head? = some quoteChar →
      (∀ c ∈ q, looseChar c = true) →
      List.foldl lexStep (buf, lx) q = (buf, lx ++ q) := by
  induction q with
  | nil => intro buf lx _ _; simp
  | cons c q ih =>
    intro buf lx hh h
    by_cases hsp : c = ' '
    · subst hsp
      rw [List.foldl_cons, lexStep_space_quoted buf lx hh]
      rw [ih buf (lx ++ [' ']) (by cases lx with
        | nil => simp at hh
        | cons a l => simpa using hh) (fun d hd => h d (by simp [hd]))]
      simp
    · rw [List.foldl_cons,
        lexStep_plain c (plain_of_loose_ne_space c (h c (by simp)) hsp)]
      rw [ih buf (lx ++ [c]) (by cases lx with
        | nil => simp at hh
        | cons a l => simpa using hh) (fun d hd => h d (by simp [hd]))]
      simp

theorem foldl_lex_chunk (l : List Char) (h : GoodChunk l) (buf : List Token) :
    List.foldl lexStep (buf, []) l = (buf, l) := by
  rcases h with ⟨hl, hq | hp⟩
  · cases l with
    | nil => simp
    | cons c l =>
      simp only [List.head?_cons, Option.some.injEq] at hq
      subst hq
      rw [List.foldl_cons, lexStep_plain quoteChar (by decide)]
      simp only [List.nil_append]
      rw [foldl_lex_loose l buf [quoteChar] (by simp)
        (fun d hd => hl d (by simp [hd]))]
      rfl
  · exact foldl_lex_plain l buf [] hp

theorem lexStep_open (buf : List Token) (lx : List Char) :
    lexStep (buf, lx) openBraceChar = (buf ++ [oTok], lx) := by
  rfl

theorem lexStep_close (buf : List Token) (lx : List Char) :
    lexStep (buf, lx) closeBraceChar = (flushValue buf lx ++ [cTok], []) := by
  rfl

theorem lexStep_lbr (buf : List Token) (lx : List Char) :
    lexStep (buf, lx) '[' = (buf ++ [lbTok], lx) := by
  rfl

theorem lexStep_rbr (buf : List Token) (lx : List Char) :
    lexStep (buf, lx) ']' = (flushValue buf lx ++ [rbTok], []) := by
  rfl

theorem lexStep_colon (buf : List Token) (lx : List Char) :
    lexStep (buf, lx) ':' = (buf ++ [keyTok (String.mk lx), aTok], []) := by
  rfl

theorem lexStep_comma (buf : List Token) (lx : List Char) :
    lexStep (buf, lx) ',' = (flushValue buf lx ++ [sepTok], []) := by
  rfl

theorem relex_foldl (D : List Token) (h : Relex D) :
    ∀ buf : List Token, List.foldl lexStep (buf, []) (textOf D) = (buf ++ D, []) := by
  induction h with
  | nil => intro buf; simp [textOf]
  | brace rest hr ih =>
    intro buf
    rw [show textOf (oTok :: rest) = openBraceChar :: textOf rest from rfl,
      List.foldl_cons, lexStep_open, ih (buf ++ [oTok])]
    simp
  | close rest hr ih =>
    intro buf
    rw [show textOf (cTok :: rest) = closeBraceChar :: textOf rest from rfl,
      List.foldl_cons, lexStep_close]
    rw [show flushValue buf [] = buf from rfl, ih (buf ++ [cTok])]
    simp
  | lbr rest hr ih =>
    intro buf
    rw [show textOf (lbTok :: rest) = '[' :: textOf rest from rfl,
      List.foldl_cons, lexStep_lbr, ih (buf ++ [lbTok])]
    simp
  | rbr rest hr ih =>
    intro buf
    rw [show textOf (rbTok :: rest) = ']' :: textOf rest from rfl,
      List.foldl_cons, lexStep_rbr]
    rw [show flushValue buf [] = buf from rfl, ih (buf ++ [rbTok])]
    simp
  | sep rest hr ih =>
    intro buf
    rw [show textOf (sepTok :: rest) = ',' :: textOf rest from rfl,
      List.foldl_cons, lexStep_comma]
    rw [show flushValue buf [] = buf from rfl, ih (buf ++ [sepTok])]
    simp
  | key k rest hk hrel ih =>
    intro buf
    rw [show textOf (keyTok (String.mk k) :: aTok :: rest) =
      k ++ (':' :: textOf rest) from rfl]
    rw [List.foldl_append, foldl_lex_chunk k hk buf, List.foldl_cons,
      lexStep_colon, ih (buf ++ [keyTok (String.mk k), aTok])]
    simp
  | valSep v rest hne hv hrel ih =>
    intro buf
    rw [show textOf (valTok (String.mk v) :: sepTok :: rest) =
      v ++ (',' :: textOf rest) from rfl]
    rw [List.foldl_append, foldl_lex_chunk v hv buf, List.foldl_cons,
      lexStep_comma]
    rw [show flushValue buf v = buf ++ [valTok (String.mk v)] from
      by unfold flushValue; rw [if_neg hne]]
    rw [ih (buf ++ [valTok (String.mk v)] ++ [sepTok])]
    simp
  | valClose v rest hne hv hrel ih =>
    intro buf
    rw [show textOf (valTok (String.mk v) :: cTok :: rest) =
      v ++ (closeBraceChar :: textOf rest) from rfl]
    rw [List.foldl_append, foldl_lex_chunk v hv buf, List.foldl_cons,
      lexStep_close]
    rw [show flushValue buf v = buf ++ [valTok (String.mk v)] from
      by unfold flushValue; rw [if_neg hne]]
    rw [ih (buf ++ [valTok (String.mk v)] ++ [cTok])]
    simp
  | valRbr v rest hne hv hrel ih =>
    intro buf
    rw [show textOf (valTok (String.mk v) :: rbTok :: rest) =
      v ++ (']' :: textOf rest) from rfl]
    rw [List.foldl_append, foldl_lex_chunk v hv buf, List.foldl_cons,
      lexStep_rbr]
    rw [show flushValue buf v = buf ++ [valTok (String.mk v)] from
      by unfold flushValue; rw [if_neg hne]]
    rw [ih (buf ++ [valTok (String.mk v)] ++ [rbTok])]
    simp

theorem to_string_aux_textOf (D : List Token) :
    ∀ buf : String, (∀ t ∈ D, tokenText t ≠ none) →
      Json.to_string_aux D buf = some (String.mk (buf.data ++ textOf D)) := by
  induction D with
  | nil =>
    intro buf _
    simp [Json.to_string_aux, textOf]
  | cons t rest ih =>
    intro buf h
    obtain ⟨s, hs⟩ : ∃ s, tokenText t = some s :=
      Option.ne_none_iff_exists'.mp (h t (by simp))
    simp only [Json.to_string_aux, hs]
    rw [ih (buf ++ s) (fun u hu => h u (by simp [hu]))]
    congr 1
    rw [show (buf ++ s).data = buf.data ++ s.data from rfl]
    rw [show textOf (t :: rest) =
      (match tokenText t with | some u => u.data | none => []) ++ textOf rest
      from rfl, hs]
    simp [List.append_assoc]

theorem relex_tokenText (D : List Token) (h : Relex D) :
    ∀ t ∈ D, tokenText t ≠ none := by
  induction h with
  | nil => intro t ht; simp at ht
  | brace rest hr ih =>
    intro t ht
    rcases List.mem_cons.mp ht with h1 | h1
    · subst h1; simp [tokenText, oTok, Token.no_lexeme]
    · exact ih t h1
  | close rest hr ih =>
    intro t ht
    rcases List.mem_cons.mp ht with h1 | h1
    · subst h1; simp [tokenText, cTok, Token.no_lexeme]
    · exact ih t h1
  | lbr rest hr ih =>
    intro t ht
    rcases List.mem_cons.mp ht with h1 | h1
    · subst h1; simp [tokenText, lbTok, Token.no_lexeme]
    · exact ih t h1
  | rbr rest hr ih =>
    intro t ht
    rcases List.mem_cons.mp ht with h1 | h1
    · subst h1; simp [tokenText, rbTok, Token.no_lexeme]
    · exact ih t h1
  | sep rest hr ih =>
    intro t ht
    rcases List.mem_cons.mp ht with h1 | h1
    · subst h1; simp [tokenText, sepTok, Token.no_lexeme]
    · exact ih t h1
  | key k rest hk hrel ih =>
    intro t ht
    rcases List.mem_cons.mp ht with h1 | h1
    · subst h1; simp [tokenText, keyTok, Token.new]
    · rcases List.mem_cons.mp h1 with h2 | h2
      · subst h2; simp [tokenText, aTok, Token.no_lexeme]
      · exact ih t h2
  | valSep v rest hne hv hrel ih =>
    intro t ht
    rcases List.mem_cons.mp ht with h1 | h1
    · subst h1; simp [tokenText, valTok, Token.new]
    · rcases List.mem_cons.mp h1 with h2 | h2
      · subst h2; simp [tokenText, sepTok, Token.no_lexeme]
      · exact ih t h2
  | valClose v rest hne hv hrel ih =>
    intro t ht
    rcases List.mem_cons.mp ht with h1 | h1
    · subst h1; simp [tokenText, valTok, Token.new]
    · rcases List.mem_cons.mp h1 with h2 | h2
      · subst h2; simp [tokenText, cTok, Token.no_lexeme]
      · exact ih t h2
  | valRbr v rest hne hv hrel ih =>
    intro t ht
    rcases List.mem_cons.mp ht with h1 | h1
    · subst h1; simp [tokenText, valTok, Token.new]
    · rcases List.mem_cons.mp h1 with h2 | h2
      · subst h2; simp [tokenText, rbTok, Token.no_lexeme]
      · exact ih t h2

/-- C7 (amended): compact round-trip idempotence on relexable documents.
For every Document whose token sequence is `Relex` (Key/Value lexemes free
of structural and whitespace characters with spaces only in quote-opened
lexemes, every Key immediately followed by an Assigner, every Value
nonempty and immediately followed by a Separator/ClosingBrace/RightBracket),
lexing the compact serialization and compact-serializing again yields
exactly the original text. -/
theorem c7_round_trip (D : List Token) (txt : String) (h : Relex D)
    (hs : Json.to_string D = some txt) : Json.to_string (lex txt) = some txt := by
  have h1 : Json.to_string D = some (String.mk (textOf D)) := by
    unfold Json.to_string
    have h2 := to_string_aux_textOf D "" (relex_tokenText D h)
    simpa using h2
  have htxt : txt = String.mk (textOf D) := by
    rw [h1] at hs
    exact (Option.some.inj hs).symm
  have hlex : lex txt = D := by
    rw [htxt]
    unfold lex
    rw [show (String.mk (textOf D)).data = textOf D from rfl]
    rw [relex_foldl D h []]
    simp
  rw [hlex, hs]

/-- C7 witness: the round-trip theorem applied to the one-entry document
lexed back from its own serialization. -/
theorem c7_round_trip_witness :
    Json.to_string (lex "\x7b\"a\":1\x7d") = some "\x7b\"a\":1\x7d" := by
  have hrel : Relex [oTok, keyTok (String.mk ['"', 'a', '"']), aTok,
      valTok (String.mk ['1']), cTok] :=
    Relex.brace _ (Relex.key ['"', 'a', '"'] _ (by decide)
      (Relex.valClose ['1'] [] (by decide) (by decide) Relex.nil))
  exact c7_round_trip _ _ hrel (by decide)

/-- C7 counterexample: a Document satisfying the §3 surface invariants
whose Value lexeme contains a bare space.  Serializing, re-lexing and
re-serializing drops the space, so the claim quantified over every
Document is false. -/
theorem c7_counterexample :
    Json.to_string [oTok, keyTok "\"k\"", aTok, valTok "a b", cTok] =
      some "\x7b\"k\":a b\x7d" ∧
    Json.to_string (lex "\x7b\"k\":a b\x7d") = some "\x7b\"k\":ab\x7d" ∧
    ("\x7b\"k\":ab\x7d" : String) ≠ "\x7b\"k\":a b\x7d" := by
  decide

/- ───────────── C5: no-panic development ───────────── -/

theorem gram_tokOk (g : GKind) (L : List Token) (h : Gram g L) :
    ∀ t ∈ L,
      (t.tokenType = TokenType.Key →
        ∃ k, t.lexeme = some k ∧ 2 ≤ k.data.length) ∧
      (t.tokenType = TokenType.Value → ∃ v, t.lexeme = some v) ∧
      t.tokenType ≠ TokenType.LeftBracket ∧
      t.tokenType ≠ TokenType.RightBracket := by
  induction h with
  | obj ms hm ih =>
    intro t ht
    rcases List.mem_cons.mp ht with rfl | ht2
    · simp [oTok, Token.no_lexeme]
    · rcases List.mem_append.mp ht2 with ht3 | ht3
      · exact ih t ht3
      · rw [List.mem_singleton.mp ht3]
        simp [cTok, Token.no_lexeme]
  | mnil => intro t ht; simp at ht
  | msingle e he ih => exact ih
  | mcons e rest he hrest ihe ihrest =>
    intro t ht
    rcases List.mem_append.mp ht with ht2 | ht2
    · exact ihe t ht2
    · rcases List.mem_cons.mp ht2 with rfl | ht3
      · simp [sepTok, Token.no_lexeme]
      · exact ihrest t ht3
  | entryVal k v hk =>
    intro t ht
    rcases List.mem_cons.mp ht with rfl | ht2
    · exact ⟨fun _ => ⟨k, rfl, hk⟩, by simp [keyTok, Token.new],
        by simp [keyTok, Token.new], by simp [keyTok, Token.new]⟩
    · rcases List.mem_cons.mp ht2 with rfl | ht3
      · simp [aTok, Token.no_lexeme]
      · rw [List.mem_singleton.mp ht3]
        exact ⟨by simp [valTok, Token.new], fun _ => ⟨v, rfl⟩,
          by simp [valTok, Token.new], by simp [valTok, Token.new]⟩
  | entryObj k o hk ho ih =>
    intro t ht
    rcases List.mem_cons.mp ht with rfl | ht2
    · exact ⟨fun _ => ⟨k, rfl, hk⟩, by simp [keyTok, Token.new],
        by simp [keyTok, Token.new], by simp [keyTok, Token.new]⟩
    · rcases List.mem_cons.mp ht2 with rfl | ht3
      · simp [aTok, Token.no_lexeme]
      · exact ih t ht3

theorem braceBal_append (A B : List Token) (n : Nat) :
    braceBal (A ++ B) n = braceBal B (braceBal A n) := by
  simp [braceBal, List.foldl_append]

theorem depthSafe_append (A B : List Token) :
    ∀ n, depthSafe A n = true → depthSafe B (braceBal A n) = true →
      depthSafe (A ++ B) n = true := by
  induction A with
  | nil =>
    intro n _ hB
    simpa [braceBal] using hB
  | cons t A ih =>
    intro n hA hB
    rw [List.cons_append]
    cases htt : t.tokenType <;>
      simp only [depthSafe, htt] at hA ⊢ <;>
      rw [show braceBal (t :: A) n = braceBal A (match t.tokenType with
        | TokenType.OpeningBrace => n + 1
        | TokenType.ClosingBrace => n - 1
        | _ => n) from rfl, htt] at hB
    case OpeningBrace => exact ih (n + 1) hA hB
    case ClosingBrace =>
      rw [Bool.and_eq_true] at hA
      rw [Bool.and_eq_true]
      exact ⟨hA.1, ih (n - 1) hA.2 hB⟩
    case LeftBracket => exact ih n hA hB
    case RightBracket => exact ih n hA hB
    case Key => exact ih n hA hB
    case Assigner => exact ih n hA hB
    case Value => exact ih n hA hB
    case Separator => exact ih n hA hB

theorem gram_depth (g : GKind) (L : List Token) (h : Gram g L) :
    ∀ n, depthSafe L n = true ∧ braceBal L n = n := by
  induction h with
  | obj ms hm ih =>
    intro n
    constructor
    · show depthSafe (oTok :: (ms ++ [cTok])) n = true
      rw [show depthSafe (oTok :: (ms ++ [cTok])) n =
        depthSafe (ms ++ [cTok]) (n + 1) from rfl]
      apply depthSafe_append ms [cTok] (n + 1) (ih (n + 1)).1
      rw [(ih (n + 1)).2]
      simp only [depthSafe]
      simp [cTok, Token.no_lexeme]
    · show braceBal (oTok :: (ms ++ [cTok])) n = n
      rw [show braceBal (oTok :: (ms ++ [cTok])) n =
        braceBal (ms ++ [cTok]) (n + 1) from rfl]
      rw [braceBal_append, (ih (n + 1)).2]
      show n + 1 - 1 = n
      omega
  | mnil => intro n; exact ⟨rfl, rfl⟩
  | msingle e he ih => exact ih
  | mcons e rest he hrest ihe ihrest =>
    intro n
    constructor
    · apply depthSafe_append e (sepTok :: rest) n (ihe n).1
      rw [(ihe n).2]
      rw [show depthSafe (sepTok :: rest) n = depthSafe rest n from rfl]
      exact (ihrest n).1
    · rw [braceBal_append, (ihe n).2]
      rw [show braceBal (sepTok :: rest) n = braceBal rest n from rfl]
      exact (ihrest n).2
  | entryVal k v hk => intro n; exact ⟨rfl, rfl⟩
  | entryObj k o hk ho ih =>
    intro n
    constructor
    · rw [show depthSafe (keyTok k :: aTok :: o) n = depthSafe o n from rfl]
      exact (ih n).1
    · rw [show braceBal (keyTok k :: aTok :: o) n = braceBal o n from rfl]
      exact (ih n).2

theorem find_aux_ne_panic (keys : List String) :
    ∀ (body : List Token) (total i kf n : Nat),
      depthSafe body n = true →
      (∀ t ∈ body, t.tokenType = TokenType.Key →
        ∃ k, t.lexeme = some k ∧ 2 ≤ k.data.length) →
      kf < keys.length →
      1 ≤ i → i + body.length + 1 = total →
      Json.find_key_aux keys total (body ++ [cTok]) i kf n ≠ .panic := by
  intro body
  induction body with
  | nil =>
    intro total i kf n _ _ hkf hi htot
    simp only [List.length_nil] at htot
    have hskip : ¬(i ≠ 0 ∧ i ≠ total - 1) := by omega
    rw [List.nil_append]
    simp only [Json.find_key_aux, if_neg hskip]
    rw [if_neg (show ¬(cTok.tokenType = TokenType.Key ∧ n = kf) from
      fun hc => by simp [cTok, Token.no_lexeme] at hc)]
    simp [Json.find_key_aux]
  | cons t body ih =>
    intro total i kf n hsafe hkeys hkf hi htot
    simp only [List.length_cons] at htot
    have hmid : (i ≠ 0 ∧ i ≠ total - 1) := by omega
    have hupd : ∃ n', Json.update_nested_level n t = some n' ∧
        depthSafe body n' = true := by
      cases htt : t.tokenType
      case OpeningBrace =>
        refine ⟨n + 1, by simp [Json.update_nested_level, htt], ?_⟩
        simpa only [depthSafe, htt] using hsafe
      case ClosingBrace =>
        simp only [depthSafe, htt, Bool.and_eq_true, decide_eq_true_eq] at hsafe
        refine ⟨n - 1, ?_, hsafe.2⟩
        simp only [Json.update_nested_level, htt]
        rw [if_neg (by omega)]
      all_goals
        refine ⟨n, by simp [Json.update_nested_level, htt], ?_⟩
      all_goals simpa only [depthSafe, htt] using hsafe
    obtain ⟨n', hupd, hsafe'⟩ := hupd
    rw [List.cons_append]
    simp only [Json.find_key_aux, if_pos hmid, hupd]
    have hkeys' : ∀ u ∈ body, u.tokenType = TokenType.Key →
        ∃ k, u.lexeme = some k ∧ 2 ≤ k.data.length :=
      fun u hu => hkeys u (List.mem_cons_of_mem _ hu)
    by_cases hcond : (t.tokenType = TokenType.Key ∧ n' = kf)
    · rw [if_pos hcond]
      obtain ⟨k, hlx, hklen⟩ := hkeys t (by simp) hcond.1
      rw [hlx]
      simp only
      rw [if_pos hklen]
      obtain ⟨seg, hseg⟩ : ∃ seg, keys.get? kf = some seg := by
        rw [List.get?_eq_getElem?]
        exact ⟨keys[kf], List.getElem?_eq_getElem hkf⟩
      simp only [hseg]
      by_cases hdq : dequote k = seg
      · rw [if_pos hdq]
        by_cases hfin : kf + 1 = keys.length
        · rw [if_pos hfin]
          simp
        · rw [if_neg hfin]
          exact ih total (i + 1) (kf + 1) n' hsafe' hkeys'
            (by omega) (by omega) (by omega)
      · rw [if_neg hdq]
        exact ih total (i + 1) kf n' hsafe' hkeys' hkf (by omega) (by omega)
    · rw [if_neg hcond]
      exact ih total (i + 1) kf n' hsafe' hkeys' hkf (by omega) (by omega)

theorem find_aux_ok_key (keys : List String) :
    ∀ (L : List Token) (total i kf n j : Nat),
      Json.find_key_aux keys total L i kf n = .ok j →
      i ≤ j ∧ ∃ t, L.get? (j - i) = some t ∧ t.tokenType = TokenType.Key := by
  intro L
  induction L with
  | nil => intro total i kf n j h; simp [Json.find_key_aux] at h
  | cons t rest ih =>
    intro total i kf n j h
    simp only [Json.find_key_aux] at h
    split at h
    next => exact absurd h (by simp)
    next n' hupd =>
      by_cases hcond : (t.tokenType = TokenType.Key ∧ n' = kf)
      · rw [if_pos hcond] at h
        split at h
        next => exact absurd h (by simp)
        next lx hlx =>
          by_cases hlen : 2 ≤ lx.data.length
          · rw [if_pos hlen] at h
            split at h
            next => exact absurd h (by simp)
            next seg hseg =>
              by_cases hdq : dequote lx = seg
              · rw [if_pos hdq] at h
                by_cases hfin : kf + 1 = keys.length
                · rw [if_pos hfin] at h
                  have hj : i = j := by cases h; rfl
                  subst hj
                  exact ⟨le_refl i, t, by simp, hcond.1⟩
                · rw [if_neg hfin] at h
                  obtain ⟨hij, t2, hget, hkey⟩ := ih total (i + 1) (kf + 1) n' j h
                  refine ⟨by omega, t2, ?_, hkey⟩
                  have hji : j - i = (j - (i + 1)) + 1 := by omega
                  rw [hji]
                  simpa using hget
              · rw [if_neg hdq] at h
                obtain ⟨hij, t2, hget, hkey⟩ := ih total (i + 1) kf n' j h
                refine ⟨by omega, t2, ?_, hkey⟩
                have hji : j - i = (j - (i + 1)) + 1 := by omega
                rw [hji]
                simpa using hget
          · rw [if_neg hlen] at h
            exact absurd h (by simp)
      · rw [if_neg hcond] at h
        obtain ⟨hij, t2, hget, hkey⟩ := ih total (i + 1) kf n' j h
        refine ⟨by omega, t2, ?_, hkey⟩
        have hji : j - i = (j - (i + 1)) + 1 := by omega
        rw [hji]
        simpa using hget

theorem gram_obj_shape (o : List Token) (h : Gram .obj o) :
    ∃ ms, Gram .members ms ∧ o = oTok :: ms ++ [cTok] := by
  cases h with
  | obj ms hm => exact ⟨ms, hm, rfl⟩

theorem keyShape_nil : keyShape [] := by
  intro j t hget hkey
  simp at hget

theorem keyShape_singleton (x : Token) (hx : x.tokenType ≠ TokenType.Key) :
    keyShape [x] := by
  intro j t hget hkey
  cases j with
  | zero =>
    simp only [List.get?_cons_zero, Option.some.injEq] at hget
    subst hget
    exact absurd hkey hx
  | succ j' =>
    rw [List.get?_cons_succ] at hget
    simp at hget

theorem keyShape_cons (t : Token) (L : List Token)
    (ht : t.tokenType ≠ TokenType.Key) (hL : keyShape L) :
    keyShape (t :: L) := by
  intro j u hget hkey
  cases j with
  | zero =>
    simp only [List.get?_cons_zero, Option.some.injEq] at hget
    subst hget
    exact absurd hkey ht
  | succ j' =>
    rw [List.get?_cons_succ] at hget
    obtain ⟨t2, hg2, hprop⟩ := hL j' u hget hkey
    refine ⟨t2, ?_, hprop⟩
    rw [show j' + 1 + 2 = (j' + 2) + 1 from rfl, List.get?_cons_succ]
    exact hg2

theorem keyShape_append (A B : List Token) (hA : keyShape A) (hB : keyShape B) :
    keyShape (A ++ B) := by
  intro j t hget hkey
  by_cases hj : j < A.length
  · have hgA : A.get? j = some t := by
      rw [← List.get?_append hj]
      exact hget
    obtain ⟨t2, hg2, hprop⟩ := hA j t hgA hkey
    refine ⟨t2, ?_, hprop⟩
    obtain ⟨hj2, _⟩ := List.get?_eq_some.mp hg2
    rw [List.get?_append hj2]
    exact hg2
  · push_neg at hj
    have hgB : B.get? (j - A.length) = some t := by
      rw [← List.get?_append_right hj]
      exact hget
    obtain ⟨t2, hg2, hprop⟩ := hB (j - A.length) t hgB hkey
    refine ⟨t2, ?_, hprop⟩
    rw [List.get?_append_right (by omega)]
    rw [show j + 2 - A.length = (j - A.length) + 2 from by omega]
    exact hg2

theorem gram_keyShape (g : GKind) (L : List Token) (h : Gram g L) :
    keyShape L := by
  induction h with
  | obj ms hm ih =>
    exact keyShape_cons _ _ (by simp [oTok, Token.no_lexeme])
      (keyShape_append _ _ ih
        (keyShape_singleton cTok (by simp [cTok, Token.no_lexeme])))
  | mnil => exact keyShape_nil
  | msingle e he ih => exact ih
  | mcons e rest he hrest ihe ihrest =>
    exact keyShape_append _ _ ihe
      (keyShape_cons _ _ (by simp [sepTok, Token.no_lexeme]) ihrest)
  | entryVal k v hk =>
    intro j t hget hkey
    match j with
    | 0 =>
      exact ⟨valTok v, rfl, Or.inr ⟨rfl, v, rfl⟩⟩
    | 1 =>
      simp only [List.get?_cons_succ, List.get?_cons_zero,
        Option.some.injEq] at hget
      subst hget
      exact absurd hkey (by simp [aTok, Token.no_lexeme])
    | 2 =>
      simp only [List.get?_cons_succ, List.get?_cons_zero,
        Option.some.injEq] at hget
      subst hget
      exact absurd hkey (by simp [valTok, Token.new])
    | (j' + 3) =>
      simp at hget
  | entryObj k o hk ho ih =>
    intro j t hget hkey
    match j with
    | 0 =>
      obtain ⟨ms, hms, rfl⟩ := gram_obj_shape o ho
      exact ⟨oTok, rfl, Or.inl rfl⟩
    | 1 =>
      simp only [List.get?_cons_succ, List.get?_cons_zero,
        Option.some.injEq] at hget
      subst hget
      exact absurd hkey (by simp [aTok, Token.no_lexeme])
    | (j' + 2) =>
      simp only [List.get?_cons_succ] at hget
      obtain ⟨t2, hg2, hprop⟩ := ih j' t hget hkey
      refine ⟨t2, ?_, hprop⟩
      rw [show j' + 2 + 2 = ((j' + 2) + 1) + 1 from rfl]
      rw [List.get?_cons_succ, List.get?_cons_succ]
      exact hg2

theorem find_ne_panic (tokens : List Token) (keys : List String)
    (h : Gram .obj tokens) : Json.find_key_token_index tokens keys ≠ .panic := by
  by_cases hk : keys = []
  · subst hk
    simp [Json.find_key_token_index]
  · obtain ⟨ms, hms, rfl⟩ := gram_obj_shape tokens h
    unfold Json.find_key_token_index
    rw [if_neg hk]
    have h0 : ¬((0 : Nat) ≠ 0 ∧
        (0 : Nat) ≠ (oTok :: ms ++ [cTok]).length - 1) := by simp
    simp only [Json.find_key_aux, if_neg h0]
    rw [if_neg (show ¬(oTok.tokenType = TokenType.Key ∧ True) from
      fun hc => by simp [oTok, Token.no_lexeme] at hc)]
    apply find_aux_ne_panic keys ms _ 1 0 0
    · exact (gram_depth _ ms hms 0).1
    · intro t ht htt
      exact (gram_tokOk _ ms hms t ht).1 htt
    · exact List.length_pos.mpr hk
    · omega
    · simp only [List.length_cons, List.length_append, List.length_nil]
      omega

theorem find_ok_key (tokens : List Token) (keys : List String) (idx : Nat)
    (hf : Json.find_key_token_index tokens keys = .ok idx) :
    ∃ t, tokens.get? idx = some t ∧ t.tokenType = TokenType.Key := by
  by_cases hk : keys = []
  · subst hk
    simp [Json.find_key_token_index] at hf
  · unfold Json.find_key_token_index at hf
    rw [if_neg hk] at hf
    obtain ⟨_, t, hget, hkey⟩ := find_aux_ok_key keys tokens _ 0 0 0 idx hf
    exact ⟨t, by simpa using hget, hkey⟩

theorem get_ne_panic (tokens : List Token) (keys : List String)
    (h : Gram .obj tokens) : Json.get tokens keys ≠ .panic := by
  unfold Json.get
  cases hf : Json.find_key_token_index tokens keys with
  | panic => exact absurd hf (find_ne_panic tokens keys h)
  | err e => simp
  | ok idx =>
    obtain ⟨t, hget, hkeyt⟩ := find_ok_key tokens keys idx hf
    obtain ⟨t2, hg2, hprop⟩ := gram_keyShape _ tokens h idx t hget hkeyt
    simp only [hg2]
    rcases hprop with hO | ⟨hV, v, hv⟩
    · simp [hO]
    · rw [if_neg (show ¬t2.tokenType = TokenType.OpeningBrace from
        by rw [hV]; decide)]
      simp [hv]

theorem insert_index_spec (tokens : List Token) (keys : List String)
    (h : Gram .obj tokens) :
    Json.insert_index tokens keys ≠ .panic ∧
    (∀ ia, Json.insert_index tokens keys = .ok ia → ia ≤ tokens.length) := by
  have hlen2 : 2 ≤ tokens.length := by
    obtain ⟨ms, hms, rfl⟩ := gram_obj_shape tokens h
    simp only [List.length_cons, List.length_append, List.length_nil]
    omega
  cases hf : Json.find_key_token_index tokens keys with
  | panic => exact absurd hf (find_ne_panic tokens keys h)
  | err e =>
    cases e
    case NoPathProvided =>
      simp only [Json.insert_index, hf]
      refine ⟨by simp, ?_⟩
      intro ia hia
      cases hia
      omega
    all_goals simp [Json.insert_index, hf]
  | ok i =>
    obtain ⟨t, hget, hkeyt⟩ := find_ok_key tokens keys i hf
    obtain ⟨t2, hg2, hprop⟩ := gram_keyShape _ tokens h i t hget hkeyt
    have hkv : Json.is_key_value_an_object tokens i =
        .ok (decide (t2.tokenType = TokenType.OpeningBrace)) := by
      simp only [Json.is_key_value_an_object, hg2]
    have hi2 : i + 2 < tokens.length := by
      obtain ⟨h1, _⟩ := List.get?_eq_some.mp hg2
      exact h1
    by_cases hO : t2.tokenType = TokenType.OpeningBrace
    · rw [decide_eq_true_eq.mpr hO] at hkv
      simp only [Json.insert_index, hf, hkv]
      refine ⟨by simp, ?_⟩
      intro ia hia
      cases hia
      omega
    · rw [decide_eq_false hO] at hkv
      simp only [Json.insert_index, hf, hkv]
      simp

theorem insert_tokens_ne_panic (tokens : List Token) (keys : List String)
    (run : List Token) (h : Gram .obj tokens) :
    Json.insert_tokens tokens keys run true ≠ .panic := by
  obtain ⟨hnp, hle⟩ := insert_index_spec tokens keys h
  cases hia : Json.insert_index tokens keys with
  | panic => exact absurd hia hnp
  | err e => simp [Json.insert_tokens, hia]
  | ok ia =>
    simp only [Json.insert_tokens, hia, if_neg (not_lt.mpr (hle ia hia))]
    rw [if_neg (show ¬(true = false) by decide)]
    cases hsg : (tokens.take ia ++ run ++ tokens.drop ia).get? (ia + run.length)
    · simp [hsg]
    · simp only [hsg]
      split <;> simp

theorem gram_value_next (tokens : List Token) (h : Gram .obj tokens) :
    ∀ j t, tokens.get? j = some t → t.tokenType = TokenType.Value →
      j + 1 < tokens.length := by
  obtain ⟨ms, hms, rfl⟩ := gram_obj_shape tokens h
  intro j t hget htt
  have hlt : j < (oTok :: ms ++ [cTok]).length :=
    (List.get?_eq_some.mp hget).1
  by_contra hcon
  push_neg at hcon
  have hlen : (oTok :: ms ++ [cTok]).length = ms.length + 2 := by
    simp only [List.length_cons, List.length_append, List.length_nil]
  have hj : j = ms.length + 1 := by omega
  subst hj
  have hx : (oTok :: ms ++ [cTok]).get? (ms.length + 1) = some cTok := by
    rw [List.get?_append_right (show (oTok :: ms).length ≤ ms.length + 1 by simp)]
    simp
  rw [hx] at hget
  have ht : t = cTok := by
    injection hget with hh
    exact hh.symm
  subst ht
  simp [cTok, Token.no_lexeme] at htt

theorem format_close_ne_panic (tokens : List Token) (buf : String)
    (i nl : Nat) (br : String) :
    Json.format_close tokens buf i nl br ≠ .panic := by
  unfold Json.format_close
  cases hg : tokens.get? (i + 1)
  · simp only [hg]
    split <;> simp
  · simp only [hg]
    split <;> simp

theorem drop_cons_succ (tokens rest : List Token) (t : Token) (i : Nat)
    (hdrop : tokens.drop i = t :: rest) : tokens.drop (i + 1) = rest := by
  rw [← List.drop_drop 1 i tokens, hdrop]
  rfl

theorem get?_of_drop (tokens rest : List Token) (t : Token) (i : Nat)
    (hdrop : tokens.drop i = t :: rest) : tokens.get? i = some t := by
  have h0 : (tokens.drop i).get? 0 = tokens.get? (i + 0) := List.get?_drop tokens i 0
  rw [hdrop] at h0
  simpa using h0.symm

theorem format_aux_ne_panic (tokens : List Token) (h : Gram .obj tokens) :
    ∀ (rest : List Token) (i n : Nat) (buf : String),
      tokens.drop i = rest → depthSafe rest n = true →
      Json.format_aux tokens rest i n buf ≠ .panic := by
  intro rest
  induction rest with
  | nil =>
    intro i n buf _ _
    simp [Json.format_aux]
  | cons t rest ih =>
    intro i n buf hdrop hsafe
    have hget : tokens.get? i = some t := get?_of_drop tokens rest t i hdrop
    have hmem : t ∈ tokens := List.get?_mem hget
    have htok := gram_tokOk _ tokens h t hmem
    have hdrop' : tokens.drop (i + 1) = rest := drop_cons_succ tokens rest t i hdrop
    cases htt : t.tokenType
    case LeftBracket => exact absurd htt htok.2.2.1
    case RightBracket => exact absurd htt htok.2.2.2
    case OpeningBrace =>
      have hupd : Json.update_nested_level_include_brackets n t = some (n + 1) := by
        simp [Json.update_nested_level_include_brackets, htt]
      simp only [Json.format_aux, hupd, htt]
      apply ih (i + 1) (n + 1) _ hdrop'
      simpa only [depthSafe, htt] using hsafe
    case ClosingBrace =>
      simp only [depthSafe, htt, Bool.and_eq_true, decide_eq_true_eq] at hsafe
      have hupd : Json.update_nested_level_include_brackets n t = some (n - 1) := by
        simp only [Json.update_nested_level_include_brackets, htt]
        rw [if_neg (by omega)]
      simp only [Json.format_aux, hupd, htt]
      cases hfc : Json.format_close tokens buf i (n - 1) (String.mk [closeBraceChar]) with
      | panic => exact absurd hfc (format_close_ne_panic tokens buf i (n - 1) _)
      | err e => simp
      | ok buf' => exact ih (i + 1) (n - 1) buf' hdrop' hsafe.2
    case Key =>
      have hupd : Json.update_nested_level_include_brackets n t = some n := by
        simp [Json.update_nested_level_include_brackets, htt]
      obtain ⟨k, hlx, _⟩ := htok.1 htt
      simp only [Json.format_aux, hupd, htt, hlx]
      apply ih (i + 1) n _ hdrop'
      simpa only [depthSafe, htt] using hsafe
    case Value =>
      have hupd : Json.update_nested_level_include_brackets n t = some n := by
        simp [Json.update_nested_level_include_brackets, htt]
      obtain ⟨v, hv⟩ := htok.2.1 htt
      obtain ⟨t2, ht2⟩ : ∃ t2, tokens.get? (i + 1) = some t2 := by
        have hlt := gram_value_next tokens h i t hget htt
        rw [List.get?_eq_getElem?]
        exact ⟨tokens[i + 1], List.getElem?_eq_getElem hlt⟩
      have hfv : ∃ buf', Json.format_value tokens buf i n t = .ok buf' := by
        unfold Json.format_value
        simp only [hv, ht2]
        by_cases hsep : t2.tokenType ≠ TokenType.Separator
        · rw [if_pos hsep]
          exact ⟨_, rfl⟩
        · rw [if_neg hsep]
          exact ⟨_, rfl⟩
      obtain ⟨buf', hfv⟩ := hfv
      simp only [Json.format_aux, hupd, htt, hfv]
      apply ih (i + 1) n buf' hdrop'
      simpa only [depthSafe, htt] using hsafe
    case Assigner =>
      have hupd : Json.update_nested_level_include_brackets n t = some n := by
        simp [Json.update_nested_level_include_brackets, htt]
      simp only [Json.format_aux, hupd, htt]
      apply ih (i + 1) n _ hdrop'
      simpa only [depthSafe, htt] using hsafe
    case Separator =>
      have hupd : Json.update_nested_level_include_brackets n t = some n := by
        simp [Json.update_nested_level_include_brackets, htt]
      simp only [Json.format_aux, hupd, htt]
      apply ih (i + 1) n _ hdrop'
      simpa only [depthSafe, htt] using hsafe

theorem to_string_format_ne_panic (tokens : List Token)
    (h : Gram .obj tokens) : Json.to_string_format tokens ≠ .panic := by
  unfold Json.to_string_format
  exact format_aux_ne_panic tokens h tokens 0 0 "" rfl (gram_depth _ tokens h 0).1

/-- C5 (amended): no-panic totality on well-formed array-free object
documents.  For every input string whose lexed token sequence forms a
well-formed object document per `Gram` (brace-delimited entries of quoted
keys with scalar or nested-object values, no arrays) and every path, each
of `get`, `insert_value` (with a non-Array value), `insert_object`, and
the pretty serializer returns a result or a typed `JsonError` and never
panics. -/
theorem c5_no_panic (s : String) (keys : List String) (k : String)
    (v : JsonValue) (hobj : Gram .obj (lex s)) (hv : isScalar v = true) :
    Json.get (lex s) keys ≠ .panic ∧
    Json.insert_value (lex s) keys k v ≠ .panic ∧
    Json.insert_object (lex s) keys k ≠ .panic ∧
    Json.to_string_format (lex s) ≠ .panic := by
  refine ⟨get_ne_panic _ keys hobj, ?_, ?_,
    to_string_format_ne_panic _ hobj⟩
  · obtain ⟨vs, hvs⟩ : ∃ vs, to_string_force v = some vs := by
      cases v <;> simp [to_string_force, isScalar] at hv ⊢
    simp only [Json.insert_value, hvs]
    exact insert_tokens_ne_panic _ keys _ hobj
  · exact insert_tokens_ne_panic _ keys _ hobj

/-- C5 witness: the no-panic theorem applied to a concrete one-entry
document. -/
theorem c5_no_panic_witness :
    Json.get (lex "\x7b\"a\":1\x7d") ["a"] ≠ .panic ∧
    Json.insert_value (lex "\x7b\"a\":1\x7d") ["a"] "b" (.Int 2) ≠ .panic ∧
    Json.insert_object (lex "\x7b\"a\":1\x7d") ["a"] "b" ≠ .panic ∧
    Json.to_string_format (lex "\x7b\"a\":1\x7d") ≠ .panic := by
  have hlex : lex "\x7b\"a\":1\x7d" =
      oTok :: [keyTok "\"a\"", aTok, valTok "1"] ++ [cTok] := by decide
  have hobj : Gram .obj (lex "\x7b\"a\":1\x7d") := by
    rw [hlex]
    exact Gram.obj _ (Gram.msingle _ (Gram.entryVal "\"a\"" "1" (by decide)))
  exact c5_no_panic _ ["a"] "b" (.Int 2) hobj rfl

/-- C5 counterexample: the claim as stated quantifies over every input
string including ones containing array values; on the document lexed from
an object mapping "x" to the array [1], `get ["x"]` finds a LeftBracket at
`idx + 2` and unwraps its absent lexeme — a panic, not a typed error. -/
theorem c5_counterexample :
    Json.get (lex "\x7b\"x\":[1]\x7d") ["x"] = .panic := by
  decide
